import Mathlib

/-!
Shallow embedding of `table.py` (kimmobrunfeldt/pieces), a Python 2 module that
renders a 2-dimensional list as a fixed-width text table, handling East Asian
wide characters.  Python unicode strings are modelled as lists of code points
(`UStr`), Python 2 byte strings (`str`) as lists of byte values (`Bytes`), and
cell values as the inductive `Cell`.  Fallible Python operations (decoding,
indexing, `max()` on an empty sequence) return `Option`.
-/

/-- East Asian Width classes from the Unicode EAW property:
Wide, Fullwidth, Narrow, Halfwidth, Ambiguous, Neutral. -/
inductive EAW
  | W | F | Na | H | A | N
deriving DecidableEq, Repr

/-- Modelled fragment of `unicodedata.east_asian_width`, covering printable
ASCII (Narrow), Hangul Jamo, Kana, CJK Unified Ideographs and Hangul
Syllables (Wide), and the Fullwidth Forms blocks (Fullwidth).  All other code
points, including the control characters 0 to 31 and 127, are classified
Neutral, as Unicode does for controls. -/
def east_asian_width (c : Nat) : EAW :=
  if 0x20 ≤ c ∧ c ≤ 0x7E then EAW.Na
  else if 0x1100 ≤ c ∧ c ≤ 0x115F then EAW.W
  else if 0x3040 ≤ c ∧ c ≤ 0x30FF then EAW.W
  else if 0x4E00 ≤ c ∧ c ≤ 0x9FFF then EAW.W
  else if 0xAC00 ≤ c ∧ c ≤ 0xD7A3 then EAW.W
  else if 0xFF01 ≤ c ∧ c ≤ 0xFF60 then EAW.F
  else if 0xFFE0 ≤ c ∧ c ≤ 0xFFE6 then EAW.F
  else EAW.N

/-- A Python unicode string: a list of Unicode code points. -/
abbrev UStr := List Nat

/-- A Python 2 byte string (`str`): a list of byte values below 256. -/
abbrev Bytes := List Nat

/-- A table cell value: the kinds of values the module is exercised with in
its own demonstration entry point are integers, byte strings and unicode
strings. -/
inductive Cell
  | int (n : Int)
  | str (b : Bytes)
  | uni (s : UStr)
deriving DecidableEq, Repr

/-- A data or header row: an ordered list of cells. -/
abbrev Row := List Cell

/-- Python `str(n)` for an integer, as the list of ASCII byte values of its
decimal representation (with a leading minus sign when negative). -/
def intToBytes (n : Int) : Bytes :=
  (toString n).toList.map Char.toNat

/-- Whether a byte is a UTF-8 continuation byte (0x80 to 0xBF). -/
def isCont (b : Nat) : Bool :=
  decide (0x80 ≤ b ∧ b ≤ 0xBF)

/-- Admissible range of the first continuation byte of a 3-byte UTF-8
sequence, as in the CPython strict decoder (excludes overlong encodings for
0xE0 and surrogates for 0xED). -/
def cont3ok (b c1 : Nat) : Bool :=
  if b = 0xE0 then decide (0xA0 ≤ c1 ∧ c1 ≤ 0xBF)
  else if b = 0xED then decide (0x80 ≤ c1 ∧ c1 ≤ 0x9F)
  else isCont c1

/-- Admissible range of the first continuation byte of a 4-byte UTF-8
sequence (excludes overlong encodings for 0xF0 and code points beyond
U+10FFFF for 0xF4). -/
def cont4ok (b c1 : Nat) : Bool :=
  if b = 0xF0 then decide (0x90 ≤ c1 ∧ c1 ≤ 0xBF)
  else if b = 0xF4 then decide (0x80 ≤ c1 ∧ c1 ≤ 0x8F)
  else isCont c1

/-- One step of strict UTF-8 decoding: decode the first code point of the
byte list and return it with the remaining bytes, or `none` on an invalid
sequence. -/
def utf8Step : Bytes → Option (Nat × Bytes)
  | [] => none
  | b :: rest =>
    if b ≤ 0x7F then some (b, rest)
    else if 0xC2 ≤ b ∧ b ≤ 0xDF then
      match rest with
      | c1 :: r2 =>
        if isCont c1 then some ((b - 0xC0) * 0x40 + (c1 - 0x80), r2) else none
      | [] => none
    else if 0xE0 ≤ b ∧ b ≤ 0xEF then
      match rest with
      | c1 :: c2 :: r3 =>
        if cont3ok b c1 && isCont c2 then
          some ((b - 0xE0) * 0x1000 + (c1 - 0x80) * 0x40 + (c2 - 0x80), r3)
        else none
      | _ => none
    else if 0xF0 ≤ b ∧ b ≤ 0xF4 then
      match rest with
      | c1 :: c2 :: c3 :: r4 =>
        if cont4ok b c1 && isCont c2 && isCont c3 then
          some ((b - 0xF0) * 0x40000 + (c1 - 0x80) * 0x1000
                  + (c2 - 0x80) * 0x40 + (c3 - 0x80), r4)
        else none
      | _ => none
    else none

/-- Fuelled strict UTF-8 decoding loop; each step consumes at least one byte,
so fuel equal to the length of the input is always sufficient. -/
def utf8DecodeGo : Nat → Bytes → Option UStr
  | _, [] => some []
  | 0, _ :: _ => none
  | fuel + 1, b :: rest =>
    match utf8Step (b :: rest) with
    | some (cp, r) =>
      match utf8DecodeGo fuel r with
      | some t => some (cp :: t)
      | none => none
    | none => none

/-- Python `bytes.decode(..utf-8..)` in strict mode: the full code point list,
or `none` when the input is not valid UTF-8 (a `UnicodeDecodeError`). -/
def decode_utf8 (l : Bytes) : Option UStr :=
  utf8DecodeGo l.length l

/-- Python `bytes.decode(..iso-8859-1..)`: every byte maps to the code point
of the same value, so this decoding never fails. -/
def decode_iso_8859_1 (l : Bytes) : Option UStr :=
  some l

/-- Fuelled loop for UTF-8 decoding with the `replace` error handler: an
invalid sequence yields U+FFFD and decoding resumes one byte further on.
This models the CPython handler coarsely (CPython may consume several bytes
per replacement); the branch of `_all_to_unicode` that uses it is unreachable
because ISO-8859-1 decoding always succeeds first. -/
def utf8ReplaceGo : Nat → Bytes → UStr
  | _, [] => []
  | 0, _ :: _ => []
  | fuel + 1, b :: rest =>
    match utf8Step (b :: rest) with
    | some (cp, r) => cp :: utf8ReplaceGo fuel r
    | none => 0xFFFD :: utf8ReplaceGo fuel rest

/-- Python `bytes.decode(..utf-8.., ..replace..)`: total decoding with
replacement characters. -/
def decode_utf8_replace (l : Bytes) : UStr :=
  utf8ReplaceGo l.length l

/-- The decoding cascade of `Table._all_to_unicode` applied to a byte string:
try UTF-8 strict, on `UnicodeDecodeError` try ISO-8859-1 strict, and on a
second `UnicodeDecodeError` decode as UTF-8 with replacement. -/
def decodeBytes (b : Bytes) : Option UStr :=
  match decode_utf8 b with
  | some u => some u
  | none =>
    match decode_iso_8859_1 b with
    | some u => some u
    | none => some (decode_utf8_replace b)

/-- The Table class: `_headers` is the first row popped from the input,
`_table` holds the data rows, `_column_widths` the widths computed once at
construction. -/
structure Table where
  _headers : Row
  _table : List Row
  _column_widths : List Nat
deriving DecidableEq, Repr

/-- Modelled from `Table._all_to_unicode`: a unicode value is returned as is;
anything that is not a byte string is first converted with `str()`; byte
strings go through the three-step decoding cascade.  The result is `Option`
so that a raised exception would show as `none`; no input produces `none`. -/
def Table._all_to_unicode (mixed : Cell) : Option UStr :=
  match mixed with
  | Cell.uni s => some s
  | Cell.str b => decodeBytes b
  | Cell.int n => decodeBytes (intToBytes n)

/-- The unicode text of a cell as produced by `Table._all_to_unicode`
(which never fails; see `all_to_unicode_spec`). -/
def toText (mixed : Cell) : UStr :=
  (Table._all_to_unicode mixed).getD []

/-- Modelled from `Table._strip_nonprintable`: remove the characters with
code points 0 to 31 and 127. -/
def Table._strip_nonprintable (text : UStr) : UStr :=
  text.filter (fun c => !(decide (c < 32) || decide (c = 127)))

/-- Terminal cell width of a single character: `1 + (east_asian_width(c) in "WF")`,
that is 2 for Wide and Fullwidth characters and 1 otherwise. -/
def charWidth (c : Nat) : Nat :=
  1 + (if east_asian_width c = EAW.W ∨ east_asian_width c = EAW.F then 1 else 0)

/-- Display width of a unicode string: the sum of its per-character widths. -/
def textWidth (s : UStr) : Nat :=
  (s.map charWidth).sum

/-- Modelled from `Table._width_when_printed`: convert to unicode, strip the
non-printable characters, and sum the per-character widths. -/
def Table._width_when_printed (mixed : Cell) : Nat :=
  textWidth (Table._strip_nonprintable (toText mixed))

/-- Effectful `List.map` over `Option`, used to model Python loops and
generator expressions whose body may raise: the whole loop yields `none` as
soon as one element does. -/
def mapMo (f : α → Option β) : List α → Option (List β)
  | [] => some []
  | x :: xs =>
    match f x with
    | some y =>
      match mapMo f xs with
      | some ys => some (y :: ys)
      | none => none
    | none => none

/-- Python `max()` over a list of naturals: `none` on the empty list (a
`ValueError`), otherwise the left fold of `Nat.max` from the first element. -/
def pyMax : List Nat → Option Nat
  | [] => none
  | x :: xs => some (xs.foldl Nat.max x)

/-- The body of the loop of `Table._get_column_widths` for one column index:
take the maximum printed width over the data rows (indexing a short row is an
`IndexError`, `max` of no rows a `ValueError`, both `none`), replace it by
the header width when that is larger, and add 2 for the padding spaces. -/
def columnWidthAt (headers : Row) (table : List Row) (i : Nat) : Option Nat :=
  match mapMo (fun row => (row[i]?).map Table._width_when_printed) table with
  | some lw =>
    match pyMax lw with
    | some column_width =>
      match headers[i]? with
      | some hc =>
        some ((if column_width < Table._width_when_printed hc
               then Table._width_when_printed hc else column_width) + 2)
      | none => none
    | none => none
  | none => none

/-- Modelled from `Table._get_column_widths`: the loop over the column
indices of the header, each iteration computing `columnWidthAt`. -/
def Table._get_column_widths (headers : Row) (table : List Row) : Option (List Nat) :=
  mapMo (columnWidthAt headers table) (List.range headers.length)

/-- The corner character of border lines, code point of the plus sign. -/
def CORNER : Nat := 43

/-- The horizontal border character, code point of the minus sign. -/
def HORIZONTAL : Nat := 45

/-- The column separator character, code point of the vertical bar. -/
def VERTICAL : Nat := 124

/-- The padding character, code point of the space. -/
def SPACE : Nat := 32

/-- The border line of `Table.draw`: a corner, then for each column the
horizontal character repeated the column width many times, columns separated
by corners, then a final corner. -/
def limiter (column_widths : List Nat) : UStr :=
  [CORNER]
    ++ List.intercalate [CORNER] (column_widths.map (fun x => List.replicate x HORIZONTAL))
    ++ [CORNER]

/-- Modelled from `Table._print_row`: the emitted line starts with the
vertical bar; `zip` pairs the column widths with the row cells (silently
stopping at the shorter of the two); each cell is converted to unicode,
stripped, surrounded by one space on each side, padded on the right with
spaces up to the column width, and closed with a vertical bar.  In Python a
negative padding count yields the empty string, as natural subtraction does
here. -/
def Table._print_row (column_widths : List Nat) (row : Row) : UStr :=
  VERTICAL :: List.flatten ((column_widths.zip row).map (fun p =>
    let element := Table._strip_nonprintable (toText p.2)
    let padded := SPACE :: element ++ [SPACE]
    let element_width := Table._width_when_printed (Cell.uni padded)
    padded ++ List.replicate (p.1 - element_width) SPACE ++ [VERTICAL]))

/-- Modelled from `Table.draw`: emit the border line, the header line, the
border line again, one line per data row in current order, and a final
border line.  The returned list is the ordered sequence of printed lines. -/
def Table.draw (t : Table) : List UStr :=
  [limiter t._column_widths, Table._print_row t._column_widths t._headers,
    limiter t._column_widths]
  ++ t._table.map (Table._print_row t._column_widths)
  ++ [limiter t._column_widths]

/-- Modelled from `Table.__init__`: `table.pop(0)` removes the first row of
the list supplied by the caller, in place, and takes it as the header; the
table keeps the same (mutated) list object as its data rows and computes the
column widths once.  The first component is the constructed table (`none`
when `pop` or the width computation raises); the second component is the
content of the list held by the caller after the call, and the `_table`
field of the table aliases that list. -/
def Table.init (table : List Row) : Option Table × List Row :=
  match table with
  | [] => (none, [])
  | h :: rest =>
    match Table._get_column_widths h rest with
    | some ws => (some ⟨h, rest, ws⟩, rest)
    | none => (none, rest)

/-- Lexicographic strict comparison of code point or byte lists, the Python 2
ordering of two strings of the same type. -/
def lexLt : List Nat → List Nat → Bool
  | _, [] => false
  | [], _ :: _ => true
  | a :: as, b :: bs => decide (a < b) || (decide (a = b) && lexLt as bs)

/-- Whether every byte of a Python 2 `str` is ASCII, so that comparison with
a unicode string silently coerces. -/
def asciiAll (b : Bytes) : Bool :=
  b.all (fun c => decide (c < 128))

/-- Python 2 `<` on cell values: integers compare numerically; numbers
compare below any non-number (CPython 2 treats the type name of numbers as
empty in its cross-type fallback); same-type strings compare
lexicographically; a `str` and a `unicode` compare lexicographically after
ASCII coercion when the bytes are ASCII, and otherwise fall back to the type
name order, `str` before `unicode`.  This comparison never raises for these
value kinds. -/
def cellLt : Cell → Cell → Bool
  | Cell.int a, Cell.int b => decide (a < b)
  | Cell.int _, Cell.str _ => true
  | Cell.int _, Cell.uni _ => true
  | Cell.str _, Cell.int _ => false
  | Cell.uni _, Cell.int _ => false
  | Cell.str a, Cell.str b => lexLt a b
  | Cell.uni a, Cell.uni b => lexLt a b
  | Cell.str a, Cell.uni b => if asciiAll a then lexLt a b else true
  | Cell.uni a, Cell.str b => if asciiAll b then lexLt a b else false

/-- The constructor kind of a cell value, used to state hypotheses about
columns whose values all have one type. -/
def kindOf : Cell → Nat
  | Cell.int _ => 0
  | Cell.str _ => 1
  | Cell.uni _ => 2

/-- Comparison used by the stable sort on decorated rows: pair `a` may stay
before pair `b` exactly when the key of `b` is not strictly below the key of
`a`. -/
def rowLe (a b : Cell × Row) : Bool :=
  ! cellLt b.1 a.1

/-- Stable insertion of one element: `x` is placed before the first element
`y` with `le x y`, hence after every earlier element it ties with. -/
def insertSorted (le : α → α → Bool) (x : α) : List α → List α
  | [] => [x]
  | y :: ys => if le x y then x :: y :: ys else y :: insertSorted le x ys

/-- Stable insertion sort; the first element of the input is inserted last,
so elements with equal keys keep their input order. -/
def stableSort (le : α → α → Bool) : List α → List α
  | [] => []
  | x :: xs => insertSorted le x (stableSort le xs)

/-- The semantics of Python 2 `list.sort(...)` on decorated rows: a stable
ascending sort; with `reverse=True` CPython reverses the list, sorts
ascending and reverses again, which keeps equal keys in input order. -/
def pySort (reverse : Bool) (l : List (Cell × Row)) : List (Cell × Row) :=
  if reverse then (stableSort rowLe l.reverse).reverse else stableSort rowLe l

/-- The raw cell of a row at a column index, with an arbitrary default that
is never reached when the index is in range. -/
def cellAt (i : Nat) (r : Row) : Cell :=
  (r[i]?).getD (Cell.int 0)

/-- Modelled from `Table.sort_by_column`: `list.sort` with
`key=operator.itemgetter(sort_column)` first extracts every key (an
`IndexError` on a short row makes the whole call fail), then stably sorts
the rows by the extracted keys. -/
def Table.sort_by_column (t : Table) (sort_column : Nat) (reverse : Bool) : Option Table :=
  match mapMo (fun r => (r[sort_column]?).map (fun k => (k, r))) t._table with
  | some keyed => some { t with _table := (pySort reverse keyed).map Prod.snd }
  | none => none

/-! Helper lemmas about `mapMo`. -/

theorem mapMo_map (f : α → Option β) (g : α → β) (l : List α)
    (h : ∀ x ∈ l, f x = some (g x)) : mapMo f l = some (l.map g) := by
  induction l with
  | nil => rfl
  | cons x xs ih =>
    have hx := h x (List.mem_cons_self x xs)
    have hxs := ih (fun y hy => h y (List.mem_cons_of_mem x hy))
    simp [mapMo, hx, hxs]

theorem mapMo_eq_none (f : α → Option β) (l : List α) (x : α)
    (hx : x ∈ l) (hf : f x = none) : mapMo f l = none := by
  induction l with
  | nil => cases hx
  | cons y ys ih =>
    rcases List.mem_cons.mp hx with h | h
    · subst h
      simp [mapMo, hf]
    · unfold mapMo
      cases hfy : f y with
      | none => rfl
      | some v => rw [ih h]

theorem mapMo_forall₂ (f : α → Option β) {l : List α} {ys : List β}
    (h : mapMo f l = some ys) : List.Forall₂ (fun x y => f x = some y) l ys := by
  induction l generalizing ys with
  | nil =>
    cases ys with
    | nil => exact List.Forall₂.nil
    | cons y ys =>
      simp [mapMo] at h
  | cons x xs ih =>
    unfold mapMo at h
    cases hx : f x with
    | none => rw [hx] at h; cases h
    | some y =>
      rw [hx] at h
      cases hxs : mapMo f xs with
      | none => rw [hxs] at h; cases h
      | some ys' =>
        rw [hxs] at h
        cases h
        exact List.Forall₂.cons hx (ih hxs)

theorem mapMo_length (f : α → Option β) {l : List α} {ys : List β}
    (h : mapMo f l = some ys) : ys.length = l.length :=
  ((mapMo_forall₂ f h).length_eq).symm

/-! Helper lemmas about folded maxima, mirroring the running maximum that
the Python `max` built-in computes. -/

theorem le_foldl_max (l : List Nat) (a : Nat) : a ≤ l.foldl Nat.max a := by
  induction l generalizing a with
  | nil => exact Nat.le_refl a
  | cons x xs ih =>
    exact Nat.le_trans (Nat.le_max_left a x) (ih (Nat.max a x))

theorem mem_le_foldl_max (l : List Nat) (a x : Nat) (hx : x ∈ l) :
    x ≤ l.foldl Nat.max a := by
  induction l generalizing a with
  | nil => cases hx
  | cons y ys ih =>
    rcases List.mem_cons.mp hx with h | h
    · subst h
      exact Nat.le_trans (Nat.le_max_right a x) (le_foldl_max ys (Nat.max a x))
    · exact ih (Nat.max a y) h

theorem foldl_max_init (l : List Nat) (a b : Nat) :
    l.foldl Nat.max (Nat.max a b) = Nat.max a (l.foldl Nat.max b) := by
  induction l generalizing b with
  | nil => rfl
  | cons x xs ih =>
    simp only [List.foldl_cons, Nat.max_assoc]
    exact ih (Nat.max b x)

/-! Helper lemmas about display widths and stripping. -/

theorem textWidth_append (a b : UStr) : textWidth (a ++ b) = textWidth a + textWidth b := by
  simp [textWidth]

theorem charWidth_SPACE : charWidth SPACE = 1 := by decide

theorem textWidth_replicate_SPACE (n : Nat) : textWidth (List.replicate n SPACE) = n := by
  simp [textWidth, List.map_replicate, charWidth_SPACE, List.sum_replicate]

theorem strip_idem (s : UStr) :
    Table._strip_nonprintable (Table._strip_nonprintable s) = Table._strip_nonprintable s := by
  simp [Table._strip_nonprintable, List.filter_filter]

theorem strip_cons_SPACE (s : UStr) :
    Table._strip_nonprintable (SPACE :: s) = SPACE :: Table._strip_nonprintable s := by
  simp [Table._strip_nonprintable, SPACE]

theorem strip_append (a b : UStr) :
    Table._strip_nonprintable (a ++ b)
      = Table._strip_nonprintable a ++ Table._strip_nonprintable b := by
  simp [Table._strip_nonprintable, List.filter_append]

theorem width_padded (e : UStr) :
    Table._width_when_printed (Cell.uni (SPACE :: Table._strip_nonprintable e ++ [SPACE]))
      = textWidth (Table._strip_nonprintable e) + 2 := by
  have h1 : Table._strip_nonprintable [SPACE] = [SPACE] := by decide
  simp only [Table._width_when_printed, toText, Table._all_to_unicode, Option.getD_some]
  rw [show SPACE :: Table._strip_nonprintable e ++ [SPACE]
        = ([SPACE] ++ Table._strip_nonprintable e) ++ [SPACE] from rfl]
  rw [strip_append, strip_append, strip_idem, h1]
  rw [textWidth_append, textWidth_append]
  have h2 : textWidth [SPACE] = 1 := by decide
  rw [h2]
  omega

/-! Helper lemmas about the stable insertion sort. -/

theorem perm_insertSorted (le : α → α → Bool) (x : α) (l : List α) :
    (insertSorted le x l).Perm (x :: l) := by
  induction l with
  | nil => exact List.Perm.refl _
  | cons y ys ih =>
    unfold insertSorted
    cases hxy : le x y with
    | true => simp
    | false =>
      simp only [Bool.false_eq_true, if_false]
      exact (ih.cons y).trans (List.Perm.swap x y ys)

theorem perm_stableSort (le : α → α → Bool) (l : List α) :
    (stableSort le l).Perm l := by
  induction l with
  | nil => exact List.Perm.refl _
  | cons x xs ih =>
    exact (perm_insertSorted le x (stableSort le xs)).trans (ih.cons x)

theorem mem_insertSorted (le : α → α → Bool) (x a : α) (l : List α) :
    a ∈ insertSorted le x l ↔ a = x ∨ a ∈ l := by
  rw [(perm_insertSorted le x l).mem_iff, List.mem_cons]

theorem mem_stableSort (le : α → α → Bool) (a : α) (l : List α) :
    a ∈ stableSort le l ↔ a ∈ l :=
  (perm_stableSort le l).mem_iff

theorem pairwise_insertSorted (le : α → α → Bool) (x : α) (l : List α)
    (htot : ∀ y ∈ l, le x y = true ∨ le y x = true)
    (htr : ∀ a ∈ l, ∀ b ∈ l, le x a = true → le a b = true → le x b = true)
    (hl : l.Pairwise (fun a b => le a b = true)) :
    (insertSorted le x l).Pairwise (fun a b => le a b = true) := by
  induction l with
  | nil => simp [insertSorted]
  | cons y ys ih =>
    rw [List.pairwise_cons] at hl
    obtain ⟨hy, hys⟩ := hl
    unfold insertSorted
    cases hxy : le x y with
    | true =>
      simp only [if_true]
      refine List.Pairwise.cons ?_ (List.Pairwise.cons hy hys)
      intro z hz
      rcases List.mem_cons.mp hz with rfl | hz'
      · exact hxy
      · exact htr y (List.mem_cons_self y ys) z (List.mem_cons_of_mem y hz') hxy (hy z hz')
    | false =>
      simp only [Bool.false_eq_true, if_false]
      refine List.Pairwise.cons ?_ ?_
      · intro z hz
        rcases (mem_insertSorted le x z ys).mp hz with rfl | hz'
        · rcases htot y (List.mem_cons_self y ys) with h | h
          · rw [hxy] at h; cases h
          · exact h
        · exact hy z hz'
      · refine ih ?_ ?_ hys
        · intro z hz
          exact htot z (List.mem_cons_of_mem y hz)
        · intro a ha b hb
          exact htr a (List.mem_cons_of_mem y ha) b (List.mem_cons_of_mem y hb)

theorem pairwise_stableSort (le : α → α → Bool) (l : List α)
    (htot : ∀ a ∈ l, ∀ b ∈ l, le a b = true ∨ le b a = true)
    (htr : ∀ a ∈ l, ∀ b ∈ l, ∀ c ∈ l, le a b = true → le b c = true → le a c = true) :
    (stableSort le l).Pairwise (fun a b => le a b = true) := by
  induction l with
  | nil => simp [stableSort]
  | cons x xs ih =>
    unfold stableSort
    refine pairwise_insertSorted le x (stableSort le xs) ?_ ?_ ?_
    · intro y hy
      have hy' : y ∈ xs := (mem_stableSort le y xs).mp hy
      exact htot x (List.mem_cons_self x xs) y (List.mem_cons_of_mem x hy')
    · intro a ha b hb
      have ha' : a ∈ xs := (mem_stableSort le a xs).mp ha
      have hb' : b ∈ xs := (mem_stableSort le b xs).mp hb
      exact htr x (List.mem_cons_self x xs) a (List.mem_cons_of_mem x ha')
        b (List.mem_cons_of_mem x hb')
    · refine ih ?_ ?_
      · intro a ha b hb
        exact htot a (List.mem_cons_of_mem x ha) b (List.mem_cons_of_mem x hb)
      · intro a ha b hb c hc
        exact htr a (List.mem_cons_of_mem x ha) b (List.mem_cons_of_mem x hb)
          c (List.mem_cons_of_mem x hc)

/-! Helper lemmas about the Python 2 value ordering. -/

theorem lexLt_irrefl (a : List Nat) : lexLt a a = false := by
  induction a with
  | nil => rfl
  | cons x xs ih => simp [lexLt, ih]

theorem lexLt_asymm (a b : List Nat) (h : lexLt a b = true) : lexLt b a = false := by
  induction a generalizing b with
  | nil =>
    cases b with
    | nil => simp [lexLt] at h
    | cons y ys => rfl
  | cons x xs ih =>
    cases b with
    | nil => simp [lexLt] at h
    | cons y ys =>
      simp only [lexLt, Bool.or_eq_true, Bool.and_eq_true, decide_eq_true_eq] at h
      simp only [lexLt, Bool.or_eq_false_iff, Bool.and_eq_false_iff, decide_eq_false_iff_not]
      rcases h with h | ⟨rfl, h⟩
      · exact ⟨by omega, Or.inl (by omega)⟩
      · exact ⟨by omega, Or.inr (ih ys h)⟩

theorem lexLt_trans (a b c : List Nat) (h1 : lexLt a b = true) (h2 : lexLt b c = true) :
    lexLt a c = true := by
  induction a generalizing b c with
  | nil =>
    cases c with
    | nil => cases b <;> simp [lexLt] at h1 h2
    | cons z zs => rfl
  | cons x xs ih =>
    cases b with
    | nil => simp [lexLt] at h1
    | cons y ys =>
      cases c with
      | nil => simp [lexLt] at h2
      | cons z zs =>
        simp only [lexLt, Bool.or_eq_true, Bool.and_eq_true, decide_eq_true_eq] at h1 h2 ⊢
        rcases h1 with h1 | ⟨rfl, h1⟩
        · rcases h2 with h2 | ⟨rfl, h2⟩
          · exact Or.inl (by omega)
          · exact Or.inl h1
        · rcases h2 with h2 | ⟨rfl, h2⟩
          · exact Or.inl h2
          · exact Or.inr ⟨rfl, ih ys zs h1 h2⟩

theorem lexLt_connex (a b : List Nat) (h : a ≠ b) :
    lexLt a b = true ∨ lexLt b a = true := by
  induction a generalizing b with
  | nil =>
    cases b with
    | nil => exact absurd rfl h
    | cons y ys => exact Or.inl rfl
  | cons x xs ih =>
    cases b with
    | nil => exact Or.inr rfl
    | cons y ys =>
      by_cases hxy : x = y
      · subst hxy
        have hne : xs ≠ ys := by
          intro hh
          exact h (by rw [hh])
        rcases ih ys hne with h' | h'
        · exact Or.inl (by simp [lexLt, h'])
        · exact Or.inr (by simp [lexLt, h'])
      · rcases Nat.lt_or_gt_of_ne hxy with h' | h'
        · exact Or.inl (by simp [lexLt, h'])
        · exact Or.inr (by simp [lexLt, h'])

theorem cellLt_irrefl (c : Cell) : cellLt c c = false := by
  cases c with
  | int n => simp [cellLt]
  | str b => simp [cellLt, lexLt_irrefl]
  | uni s => simp [cellLt, lexLt_irrefl]

theorem cellLt_asymm (a b : Cell) (h : cellLt a b = true) : cellLt b a = false := by
  cases a with
  | int n =>
    cases b with
    | int m =>
      simp only [cellLt, decide_eq_true_eq] at h
      simp only [cellLt, decide_eq_false_iff_not]
      omega
    | str s => rfl
    | uni s => rfl
  | str s =>
    cases b with
    | int m => simp [cellLt] at h
    | str t =>
      simp only [cellLt] at h ⊢
      exact lexLt_asymm s t h
    | uni t =>
      simp only [cellLt] at h ⊢
      cases ha : asciiAll s with
      | true =>
        rw [ha] at h
        simp only [if_true, if_pos]
        exact lexLt_asymm s t h
      | false => simp [ha]
  | uni s =>
    cases b with
    | int m => simp [cellLt] at h
    | str t =>
      simp only [cellLt] at h ⊢
      cases ha : asciiAll t with
      | true =>
        rw [ha] at h
        simp only [if_true, if_pos]
        exact lexLt_asymm s t h
      | false => rw [ha] at h; simp at h
    | uni t =>
      simp only [cellLt] at h ⊢
      exact lexLt_asymm s t h

theorem rowLe_total (a b : Cell × Row) : rowLe a b = true ∨ rowLe b a = true := by
  unfold rowLe
  cases hab : cellLt b.1 a.1 with
  | false => exact Or.inl rfl
  | true => exact Or.inr (by rw [cellLt_asymm _ _ hab]; rfl)

theorem cellLt_negtrans (a b c : Cell) (hab : kindOf a = kindOf b) (hbc : kindOf b = kindOf c)
    (h1 : cellLt b a = false) (h2 : cellLt c b = false) : cellLt c a = false := by
  cases a with
  | int x =>
    cases b with
    | int y =>
      cases c with
      | int z =>
        simp only [cellLt, decide_eq_false_iff_not] at h1 h2 ⊢
        omega
      | str _ => simp [kindOf] at hbc
      | uni _ => simp [kindOf] at hbc
    | str _ => simp [kindOf] at hab
    | uni _ => simp [kindOf] at hab
  | str x =>
    cases b with
    | int _ => simp [kindOf] at hab
    | str y =>
      cases c with
      | int _ => simp [kindOf] at hbc
      | str z =>
        simp only [cellLt] at h1 h2 ⊢
        cases hca : lexLt z x with
        | false => rfl
        | true =>
          exfalso
          by_cases hyx : y = x
          · subst hyx
            rw [hca] at h2
            cases h2
          · rcases lexLt_connex y x hyx with h' | h'
            · rw [h'] at h1; cases h1
            · have := lexLt_trans z x y hca h'
              rw [this] at h2
              cases h2
      | uni _ => simp [kindOf] at hbc
    | uni _ => simp [kindOf] at hab
  | uni x =>
    cases b with
    | int _ => simp [kindOf] at hab
    | str _ => simp [kindOf] at hab
    | uni y =>
      cases c with
      | int _ => simp [kindOf] at hbc
      | str _ => simp [kindOf] at hbc
      | uni z =>
        simp only [cellLt] at h1 h2 ⊢
        cases hca : lexLt z x with
        | false => rfl
        | true =>
          exfalso
          by_cases hyx : y = x
          · subst hyx
            rw [hca] at h2
            cases h2
          · rcases lexLt_connex y x hyx with h' | h'
            · rw [h'] at h1; cases h1
            · have := lexLt_trans z x y hca h'
              rw [this] at h2
              cases h2


theorem rowLe_trans_of_kind (a b c : Cell × Row)
    (hab : kindOf a.1 = kindOf b.1) (hbc : kindOf b.1 = kindOf c.1)
    (h1 : rowLe a b = true) (h2 : rowLe b c = true) : rowLe a c = true := by
  unfold rowLe at h1 h2 ⊢
  rw [Bool.not_eq_true'] at h1 h2 ⊢
  exact cellLt_negtrans a.1 b.1 c.1 hab hbc h1 h2

theorem filter_insertSorted_key (v : Cell) (x : Cell × Row) (l : List (Cell × Row)) :
    (insertSorted rowLe x l).filter (fun p => p.1 = v)
      = if x.1 = v then x :: l.filter (fun p => p.1 = v)
        else l.filter (fun p => p.1 = v) := by
  induction l with
  | nil =>
    by_cases hx : x.1 = v <;> simp [insertSorted, List.filter, hx]
  | cons y ys ih =>
    unfold insertSorted
    cases hxy : rowLe x y with
    | true =>
      by_cases hx : x.1 = v <;> by_cases hy : y.1 = v <;>
        simp [List.filter_cons, hx, hy]
    | false =>
      have hlt : cellLt y.1 x.1 = true := by
        unfold rowLe at hxy
        simpa using hxy
      simp only [Bool.false_eq_true, if_false]
      by_cases hy : y.1 = v
      · by_cases hx : x.1 = v
        · exfalso
          rw [hx, hy] at hlt
          rw [cellLt_irrefl v] at hlt
          cases hlt
        · simp [List.filter_cons, hy, ih, hx]
      · simp [List.filter_cons, hy, ih]

theorem filter_stableSort_key (v : Cell) (l : List (Cell × Row)) :
    (stableSort rowLe l).filter (fun p => p.1 = v) = l.filter (fun p => p.1 = v) := by
  induction l with
  | nil => rfl
  | cons x xs ih =>
    unfold stableSort
    rw [filter_insertSorted_key]
    by_cases hx : x.1 = v <;> simp [List.filter_cons, hx, ih]

theorem filter_pySort_key (v : Cell) (rev : Bool) (l : List (Cell × Row)) :
    (pySort rev l).filter (fun p => p.1 = v) = l.filter (fun p => p.1 = v) := by
  cases rev with
  | false => exact filter_stableSort_key v l
  | true =>
    unfold pySort
    simp only [if_true]
    rw [List.filter_reverse, filter_stableSort_key, List.filter_reverse,
      List.reverse_reverse]

theorem perm_pySort (rev : Bool) (l : List (Cell × Row)) : (pySort rev l).Perm l := by
  cases rev with
  | false => exact perm_stableSort rowLe l
  | true =>
    unfold pySort
    simp only [if_true]
    exact ((List.reverse_perm _).trans (perm_stableSort rowLe l.reverse)).trans
      (List.reverse_perm l)

theorem mem_pySort (rev : Bool) (p : Cell × Row) (l : List (Cell × Row)) :
    p ∈ pySort rev l ↔ p ∈ l :=
  (perm_pySort rev l).mem_iff

/-! Facts about the modelled East Asian Width table needed below. -/

theorem eaw_wide_ge (c : Nat)
    (h : east_asian_width c = EAW.W ∨ east_asian_width c = EAW.F) : 128 ≤ c := by
  unfold east_asian_width at h
  split_ifs at h <;> first | omega | simp_all

theorem textWidth_all (s : UStr) (k : Nat) (h : ∀ c ∈ s, charWidth c = k) :
    textWidth s = k * s.length := by
  induction s with
  | nil => simp [textWidth]
  | cons x xs ih =>
    have hx := h x (List.mem_cons_self x xs)
    have hxs := ih (fun c hc => h c (List.mem_cons_of_mem x hc))
    simp only [textWidth, List.map_cons, List.sum_cons, List.length_cons] at hxs ⊢
    rw [hx, hxs]
    ring

/-- Claim C7 (amended): `_all_to_unicode` never raises for any cell value; a
unicode value is returned as is; a byte string is decoded with strict UTF-8
when that succeeds and otherwise with ISO-8859-1, which maps each byte to
the equally numbered code point and never fails, so the UTF-8-with-replace
fallback of the source is unreachable and malformed byte sequences surface
as Latin-1 characters rather than replacement characters. -/
theorem all_to_unicode_spec :
    (∀ c : Cell, (Table._all_to_unicode c).isSome = true)
    ∧ (∀ s : UStr, Table._all_to_unicode (Cell.uni s) = some s)
    ∧ (∀ b : Bytes, Table._all_to_unicode (Cell.str b) = some ((decode_utf8 b).getD b)) := by
  have hb : ∀ b : Bytes, decodeBytes b = some ((decode_utf8 b).getD b) := by
    intro b
    unfold decodeBytes decode_iso_8859_1
    cases h : decode_utf8 b <;> simp [h]
  refine ⟨?_, ?_, ?_⟩
  · intro c
    cases c with
    | uni s => rfl
    | str b => rw [Table._all_to_unicode, hb b]; rfl
    | int n => rw [Table._all_to_unicode, hb (intToBytes n)]; rfl
  · intro s
    rfl
  · intro b
    rw [Table._all_to_unicode, hb b]

/-- Claim C7 counterexample: the byte 0xFF is not valid UTF-8, yet the cell
decodes through ISO-8859-1 to the single code point 0xFF (Latin-1 small y
with diaeresis); no replacement character U+FFFD appears in the output,
contrary to the claim that malformed byte sequences appear as a replacement
character. -/
theorem all_to_unicode_no_replacement_cx :
    Table._all_to_unicode (Cell.str [255]) = some [255]
      ∧ ¬ ((0xFFFD : Nat) ∈ ([255] : UStr)) := by
  exact ⟨rfl, by decide⟩

/-- Claim C5 (amended): `_width_when_printed` first strips the control
characters 0 to 31 and 127 (they contribute zero width), then adds 2 for a
Wide or Fullwidth character and 1 otherwise; a string of only Wide or
Fullwidth code points has width twice its length, and a string of only
Narrow or Neutral code points that are not control characters has width
equal to its length.  The restriction to non-control code points in the
last part is forced: control characters are Neutral yet contribute 0. -/
theorem width_when_printed_spec (s : UStr) :
    (Table._width_when_printed (Cell.uni s)
       = ((Table._strip_nonprintable s).map
            (fun c => if east_asian_width c = EAW.W ∨ east_asian_width c = EAW.F
                      then 2 else 1)).sum)
    ∧ ((∀ c ∈ s, east_asian_width c = EAW.W ∨ east_asian_width c = EAW.F) →
        Table._width_when_printed (Cell.uni s) = 2 * s.length)
    ∧ ((∀ c ∈ s, (east_asian_width c = EAW.Na ∨ east_asian_width c = EAW.N)
          ∧ ¬(c < 32 ∨ c = 127)) →
        Table._width_when_printed (Cell.uni s) = s.length) := by
  have hw : ∀ c : Nat, charWidth c
      = if east_asian_width c = EAW.W ∨ east_asian_width c = EAW.F then 2 else 1 := by
    intro c
    unfold charWidth
    split <;> rfl
  refine ⟨?_, ?_, ?_⟩
  · have hfun : charWidth
        = fun c => if east_asian_width c = EAW.W ∨ east_asian_width c = EAW.F
                   then 2 else 1 :=
      funext hw
    simp only [Table._width_when_printed, toText, Table._all_to_unicode, Option.getD_some,
      textWidth, hfun]
  · intro h
    have hs : Table._strip_nonprintable s = s := by
      apply List.filter_eq_self.mpr
      intro c hc
      have := eaw_wide_ge c (h c hc)
      simp only [Bool.not_eq_true', Bool.or_eq_false_iff, decide_eq_false_iff_not]
      omega
    simp only [Table._width_when_printed, toText, Table._all_to_unicode, Option.getD_some, hs]
    apply textWidth_all
    intro c hc
    rw [hw c, if_pos (h c hc)]
  · intro h
    have hs : Table._strip_nonprintable s = s := by
      apply List.filter_eq_self.mpr
      intro c hc
      have := (h c hc).2
      simp only [Bool.not_eq_true', Bool.or_eq_false_iff, decide_eq_false_iff_not]
      omega
    simp only [Table._width_when_printed, toText, Table._all_to_unicode, Option.getD_some, hs]
    have h1 : textWidth s = 1 * s.length := by
      apply textWidth_all
      intro c hc
      rw [hw c]
      rcases (h c hc).1 with h' | h' <;> rw [h'] <;> simp
    rw [h1]
    ring

/-- Claim C5 counterexample: the control character U+0007 has East Asian
Width class Neutral, so the claim predicts display width 1 for the
one-character string containing it, but it is stripped and the width is 0. -/
theorem width_neutral_control_cx :
    east_asian_width 7 = EAW.N
      ∧ Table._width_when_printed (Cell.uni [7]) = 0
      ∧ ([7] : UStr).length = 1 := by
  decide

/-- Claim C5 witness: a two-character all-Wide string has width 4 and a
two-character ASCII (Narrow) string has width 2. -/
theorem width_when_printed_spec_witness :
    Table._width_when_printed (Cell.uni [0x4F60, 0x597D]) = 2 * 2
      ∧ Table._width_when_printed (Cell.uni [97, 98]) = 2 := by
  constructor
  · exact (width_when_printed_spec [0x4F60, 0x597D]).2.1 (by decide)
  · exact (width_when_printed_spec [97, 98]).2.2 (by decide)

/-- Claim C2 (amended): with no data rows and at least one column, the width
computation fails — `max()` over the generator of data-cell widths raises a
`ValueError` on the empty table, so the column width is never computed as
header width + 2 and construction of a table without data rows aborts. -/
theorem get_column_widths_empty_rows_fails (headers : Row) (h : 0 < headers.length) :
    Table._get_column_widths headers [] = none := by
  unfold Table._get_column_widths
  apply mapMo_eq_none _ _ 0 (List.mem_range.mpr h)
  rfl

/-- Claim C2 counterexample: for the one-column header and no data rows the
width computation fails instead of returning the header width + 2. -/
theorem get_column_widths_empty_rows_cx :
    Table._get_column_widths [Cell.uni [104]] [] = none
      ∧ Table._get_column_widths [Cell.uni [104]] [] ≠ some [3] := by
  decide

/-- Claim C2 witness. -/
theorem get_column_widths_empty_rows_witness :
    0 < ([Cell.uni [104]] : Row).length
      ∧ Table._get_column_widths [Cell.uni [104]] [] = none :=
  ⟨by decide, get_column_widths_empty_rows_fails [Cell.uni [104]] (by decide)⟩

theorem zip_take (a : List α) (b : List β) : a.zip b = a.zip (b.take a.length) := by
  induction a generalizing b with
  | nil => rfl
  | cons x xs ih =>
    cases b with
    | nil => rfl
    | cons y ys =>
      simp only [List.zip_cons_cons, List.length_cons, List.take_succ_cons]
      rw [← ih ys]

/-- Claim C1 (amended): drawing a row that is shorter than the header does
not fail: `zip` silently stops at the end of the short row, so the emitted
line is the one obtained from the row truncated to the zipped length and
covers only the columns the row has.  The index-out-of-range error the claim
describes occurs instead in the width computation at construction time,
which fails on any table containing a row shorter than the header. -/
theorem short_row_draw_truncates (column_widths : List Nat) (row : Row) :
    (Table._print_row column_widths row
       = Table._print_row column_widths (row.take column_widths.length))
    ∧ (∀ headers table, (∃ r ∈ table, r.length < headers.length) →
        Table._get_column_widths headers table = none) := by
  constructor
  · unfold Table._print_row
    rw [← zip_take]
  · rintro headers table ⟨r, hr, hlen⟩
    unfold Table._get_column_widths
    apply mapMo_eq_none _ _ (headers.length - 1) (List.mem_range.mpr (by omega))
    have hi : r[headers.length - 1]? = none :=
      List.getElem?_eq_none (by omega)
    have hinner : mapMo (fun row => (row[headers.length - 1]?).map Table._width_when_printed)
        table = none := by
      apply mapMo_eq_none _ _ r hr
      rw [hi]
      rfl
    unfold columnWidthAt
    simp only [hinner]

/-- Claim C1 counterexample: printing a one-cell row against two column
widths succeeds and produces a line with a single rendered column (two
vertical bars in total), rather than failing fast with an
index-out-of-range error. -/
theorem short_row_print_row_cx :
    Table._print_row [3, 3] [Cell.uni [97]] = [124, 32, 97, 32, 124] := by
  decide

/-- Claim C1 witness. -/
theorem short_row_draw_truncates_witness :
    (Table._print_row [3, 3] [Cell.uni [97]]
       = Table._print_row [3, 3] ([Cell.uni [97]].take 2))
    ∧ Table._get_column_widths [Cell.uni [104], Cell.uni [104]] [[Cell.uni [97]]] = none := by
  constructor
  · exact (short_row_draw_truncates [3, 3] [Cell.uni [97]]).1
  · exact (short_row_draw_truncates [3, 3] [Cell.uni [97]]).2
      [Cell.uni [104], Cell.uni [104]] [[Cell.uni [97]]]
      ⟨[Cell.uni [97]], by decide, by decide⟩

/-- Claim C3 (amended): `draw` emits the border line, the header line, the
border line, one line per data row in current order, and the final border
line — `rows.length + 4` lines in total when `rows.length` counts the data
rows (equivalently, input rows including the header row plus 3). -/
theorem draw_spec (t : Table)
    (hshape : ∀ r ∈ t._table, r.length = t._headers.length) :
    (Table.draw t).length = t._table.length + 4
    ∧ Table.draw t
        = limiter t._column_widths
            :: Table._print_row t._column_widths t._headers
            :: limiter t._column_widths
            :: (t._table.map (Table._print_row t._column_widths)
                  ++ [limiter t._column_widths]) := by
  constructor
  · simp only [Table.draw, List.length_append, List.length_cons, List.length_map,
      List.length_nil]
    omega
  · rfl

/-- Claim C3 counterexample: a one-column table with exactly one data row of
the same length as the header draws 5 lines (border, header, border, one
data line, final border), not 1 + 3 = 4 as the claim predicts. -/
theorem draw_line_count_cx :
    (∀ r ∈ ([[Cell.int 1]] : List Row), r.length = ([Cell.uni [104]] : Row).length)
    ∧ (Table.draw ⟨[Cell.uni [104]], [[Cell.int 1]], [3]⟩).length = 5
    ∧ (Table.draw ⟨[Cell.uni [104]], [[Cell.int 1]], [3]⟩).length
        ≠ ([[Cell.int 1]] : List Row).length + 3 := by
  decide

/-- Claim C3 witness. -/
theorem draw_spec_witness :
    (Table.draw ⟨[Cell.uni [104]], [[Cell.int 1]], [3]⟩).length = 1 + 4
    ∧ Table.draw ⟨[Cell.uni [104]], [[Cell.int 1]], [3]⟩
        = limiter [3]
            :: Table._print_row [3] [Cell.uni [104]]
            :: limiter [3]
            :: ([[Cell.int 1]].map (Table._print_row [3]) ++ [limiter [3]]) :=
  draw_spec ⟨[Cell.uni [104]], [[Cell.int 1]], [3]⟩ (by decide)

theorem if_lt_max (m h : Nat) : (if m < h then h else m) = Nat.max h m := by
  rcases Nat.lt_or_ge m h with h1 | h1
  · rw [if_pos h1]
    exact (Nat.max_eq_left (Nat.le_of_lt h1)).symm
  · rw [if_neg (Nat.not_lt.mpr h1)]
    exact (Nat.max_eq_right h1).symm

theorem getElem?_cellAt (r : Row) (i : Nat) (h : i < r.length) :
    r[i]? = some (cellAt i r) := by
  rw [List.getElem?_eq_getElem h]
  simp [cellAt, List.getElem?_eq_getElem h]

theorem columnWidthAt_eq (headers : Row) (r0 : Row) (rs : List Row) (j : Nat)
    (hj : j < headers.length)
    (hshape : ∀ r ∈ r0 :: rs, headers.length ≤ r.length) :
    columnWidthAt headers (r0 :: rs) j
      = some (2 + ((r0 :: rs).map
            (fun r => Table._width_when_printed (cellAt j r))).foldl
            Nat.max (Table._width_when_printed (cellAt j headers))) := by
  have hcell : ∀ r ∈ r0 :: rs,
      (r[j]?).map Table._width_when_printed
        = some ((fun r => Table._width_when_printed (cellAt j r)) r) := by
    intro r hr
    have hjr : j < r.length := by
      have := hshape r hr
      omega
    rw [getElem?_cellAt r j hjr]
    rfl
  unfold columnWidthAt
  rw [mapMo_map _ _ _ hcell, getElem?_cellAt headers j hj]
  show some _ = some _
  simp only [List.map_cons, List.foldl_cons, pyMax]
  rw [if_lt_max, foldl_max_init]
  rw [Nat.add_comm]

/-- Claim C4: for every column index, the computed column width is 2 plus
the maximum, over the header cell and every data-row cell of that column, of
their display widths; in particular it is at least the header width plus 2
and at least every data cell width plus 2.  The data rows must be nonempty
(otherwise the computation fails, claim C2) and at least as long as the
header (otherwise indexing fails, claim C1). -/
theorem column_widths_formula (headers : Row) (table : List Row) (i : Nat)
    (hne : table ≠ [])
    (hshape : ∀ r ∈ table, r.length = headers.length)
    (hi : i < headers.length) :
    ∃ ws, Table._get_column_widths headers table = some ws
      ∧ ws[i]? = some (2 + (table.map
            (fun r => Table._width_when_printed (cellAt i r))).foldl
            Nat.max (Table._width_when_printed (cellAt i headers)))
      ∧ (∀ w, ws[i]? = some w →
          Table._width_when_printed (cellAt i headers) + 2 ≤ w
          ∧ ∀ r ∈ table, Table._width_when_printed (cellAt i r) + 2 ≤ w) := by
  obtain ⟨r0, rs, rfl⟩ : ∃ r0 rs, table = r0 :: rs := by
    cases table with
    | nil => exact absurd rfl hne
    | cons a b => exact ⟨a, b, rfl⟩
  have hge : ∀ r ∈ r0 :: rs, headers.length ≤ r.length := by
    intro r hr
    rw [hshape r hr]
  have houter : Table._get_column_widths headers (r0 :: rs)
      = some ((List.range headers.length).map (fun j =>
          2 + ((r0 :: rs).map
            (fun r => Table._width_when_printed (cellAt j r))).foldl
            Nat.max (Table._width_when_printed (cellAt j headers)))) := by
    unfold Table._get_column_widths
    apply mapMo_map
    intro j hjmem
    exact columnWidthAt_eq headers r0 rs j (List.mem_range.mp hjmem) hge
  refine ⟨_, houter, ?_, ?_⟩
  · rw [List.getElem?_map, List.getElem?_range hi]
    rfl
  · intro w hw
    rw [List.getElem?_map, List.getElem?_range hi] at hw
    simp only [Option.map_some', Option.some.injEq] at hw
    subst hw
    constructor
    · have := le_foldl_max (((r0 :: rs).map
          (fun r => Table._width_when_printed (cellAt i r))))
          (Table._width_when_printed (cellAt i headers))
      omega
    · intro r hr
      have hmem : Table._width_when_printed (cellAt i r)
          ∈ (r0 :: rs).map (fun r => Table._width_when_printed (cellAt i r)) :=
        List.mem_map_of_mem _ hr
      have := mem_le_foldl_max _ (Table._width_when_printed (cellAt i headers)) _ hmem
      omega

/-- Claim C4 witness: header of width 2 with rows of widths 1 and 2 gives
column width 4 = 2 + max(2, 1, 2). -/
theorem column_widths_formula_witness :
    ∃ ws, Table._get_column_widths [Cell.uni [73, 68]] [[Cell.int 1], [Cell.int 23]]
        = some ws
      ∧ ws[0]? = some (2 + ([[Cell.int 1], [Cell.int 23]].map
            (fun r => Table._width_when_printed (cellAt 0 r))).foldl
            Nat.max (Table._width_when_printed (cellAt 0 ([Cell.uni [73, 68]] : Row))))
      ∧ (∀ w, ws[0]? = some w →
          Table._width_when_printed (cellAt 0 ([Cell.uni [73, 68]] : Row)) + 2 ≤ w
          ∧ ∀ r ∈ [[Cell.int 1], [Cell.int 23]],
              Table._width_when_printed (cellAt 0 r) + 2 ≤ w) :=
  column_widths_formula [Cell.uni [73, 68]] [[Cell.int 1], [Cell.int 23]] 0
    (by decide) (by decide) (by decide)

theorem textWidth_replicate_one (n c : Nat) (h : charWidth c = 1) :
    textWidth (List.replicate n c) = n := by
  simp [textWidth, List.map_replicate, h, List.sum_replicate, smul_eq_mul]

theorem textWidth_flatten (l : List UStr) :
    textWidth l.flatten = (l.map textWidth).sum := by
  induction l with
  | nil => rfl
  | cons x xs ih => simp [List.flatten_cons, textWidth_append, ih]

theorem pyMax_ge (lw : List Nat) (cw : Nat) (h : pyMax lw = some cw)
    (y : Nat) (hy : y ∈ lw) : y ≤ cw := by
  cases lw with
  | nil => cases hy
  | cons x xs =>
    simp only [pyMax, Option.some.injEq] at h
    subst h
    rcases List.mem_cons.mp hy with rfl | h'
    · exact le_foldl_max xs y
    · exact mem_le_foldl_max xs x y h'

theorem forall₂_mem_left {R : α → β → Prop} {l : List α} {ys : List β}
    (h : List.Forall₂ R l ys) (x : α) (hx : x ∈ l) : ∃ y ∈ ys, R x y := by
  induction h with
  | nil => cases hx
  | cons h1 h2 ih =>
    rcases List.mem_cons.mp hx with rfl | hx'
    · exact ⟨_, List.mem_cons_self _ _, h1⟩
    · obtain ⟨y, hy, hr⟩ := ih hx'
      exact ⟨y, List.mem_cons_of_mem _ hy, hr⟩

theorem columnWidthAt_bounds (headers : Row) (table : List Row) (i w : Nat)
    (h : columnWidthAt headers table i = some w) :
    (∀ hc, headers[i]? = some hc → Table._width_when_printed hc + 2 ≤ w)
    ∧ (∀ r ∈ table, ∀ c, r[i]? = some c → Table._width_when_printed c + 2 ≤ w) := by
  unfold columnWidthAt at h
  split at h
  case _ lw hmm =>
    split at h
    case _ cw hpm =>
      split at h
      case _ hc hh =>
        simp only [Option.some.injEq] at h
        subst h
        constructor
        · intro hc' hhc'
          rw [hh, Option.some.injEq] at hhc'
          subst hhc'
          split <;> omega
        · intro r hr c hc2
          obtain ⟨y, hy, hr2⟩ := forall₂_mem_left (mapMo_forall₂ _ hmm) r hr
          rw [hc2, Option.map_some', Option.some.injEq] at hr2
          subst hr2
          have h1 := pyMax_ge lw cw hpm _ hy
          split <;> omega
      case _ => cases h
    case _ => cases h
  case _ => cases h

theorem textWidth_intercalate (x : Nat) (xs : List Nat) :
    textWidth (List.intercalate [CORNER]
        ((x :: xs).map (fun w => List.replicate w HORIZONTAL)))
      = x + (xs.map (fun w => w + 1)).sum := by
  have hH : charWidth HORIZONTAL = 1 := by decide
  have hC : textWidth [CORNER] = 1 := by decide
  induction xs generalizing x with
  | nil =>
    simp only [List.map_cons, List.map_nil, List.intercalate, List.intersperse_singleton,
      List.flatten_cons, List.flatten_nil, List.append_nil, List.sum_nil]
    exact textWidth_replicate_one x HORIZONTAL hH
  | cons y ys ih =>
    simp only [List.map_cons, List.intercalate, List.intersperse_cons_cons,
      List.flatten_cons]
    rw [textWidth_append, textWidth_append]
    have hIH := ih y
    simp only [List.map_cons, List.intercalate] at hIH
    rw [textWidth_replicate_one x HORIZONTAL hH, hC, hIH]
    simp only [List.map_cons, List.sum_cons]
    omega

theorem textWidth_limiter (ws : List Nat) (h : ws ≠ []) :
    textWidth (limiter ws) = 1 + (ws.map (fun w => w + 1)).sum := by
  obtain ⟨x, xs, rfl⟩ : ∃ x xs, ws = x :: xs := by
    cases ws with
    | nil => exact absurd rfl h
    | cons a b => exact ⟨a, b, rfl⟩
  unfold limiter
  rw [textWidth_append, textWidth_append, textWidth_intercalate]
  have hC : textWidth [CORNER] = 1 := by decide
  rw [hC]
  simp only [List.map_cons, List.sum_cons]
  omega

theorem ws_bounds (headers : Row) (table : List Row) (ws : List Nat)
    (hws : Table._get_column_widths headers table = some ws) :
    ws.length = headers.length
    ∧ ∀ k (hk : k < ws.length),
        (∀ hc, headers[k]? = some hc
          → Table._width_when_printed hc + 2 ≤ ws.get ⟨k, hk⟩)
        ∧ (∀ r ∈ table, ∀ c, r[k]? = some c
          → Table._width_when_printed c + 2 ≤ ws.get ⟨k, hk⟩) := by
  unfold Table._get_column_widths at hws
  have hf := mapMo_forall₂ _ hws
  have hlen : ws.length = headers.length := by
    have := hf.length_eq
    simpa using this.symm
  refine ⟨hlen, ?_⟩
  intro k hk
  obtain ⟨hl, hpt⟩ := List.forall₂_iff_get.mp hf
  have hk2 : k < (List.range headers.length).length := by
    simpa using (by omega : k < headers.length)
  have hcw := hpt k hk2 hk
  rw [List.get_eq_getElem, List.getElem_range] at hcw
  exact columnWidthAt_bounds headers table k _ hcw

theorem textWidth_pad (e : UStr) : textWidth (SPACE :: e ++ [SPACE]) = textWidth e + 2 := by
  show textWidth ([SPACE] ++ (e ++ [SPACE])) = _
  rw [textWidth_append, textWidth_append]
  have h1 : textWidth [SPACE] = 1 := by decide
  rw [h1]
  omega

/-- Claim C6 (amended): for a row of the same length as the header in a
table whose widths computation succeeded, the rendered line is the vertical
bar followed, for each column, by the stripped cell text with one space on
each side, right-padded with spaces to the column width, and a closing
vertical bar; each such segment has display width `columnWidths[i] + 1`, so
the whole line has display width `1 + sum(columnWidths[i] + 1)`, and the
border line has the same width provided there is at least one column.  The
zero-column proviso is forced: with an empty header the border line has
width 2 but a content line has width 1. -/
theorem print_row_line_spec (headers : Row) (table : List Row) (ws : List Nat) (row : Row)
    (hws : Table._get_column_widths headers table = some ws)
    (hrow : row = headers ∨ row ∈ table)
    (hlen : row.length = headers.length) :
    (Table._print_row ws row
       = VERTICAL :: List.flatten ((ws.zip row).map (fun p =>
           (SPACE :: Table._strip_nonprintable (toText p.2) ++ [SPACE])
             ++ List.replicate
                 (p.1 - (textWidth (Table._strip_nonprintable (toText p.2)) + 2)) SPACE
             ++ [VERTICAL])))
    ∧ (∀ p ∈ ws.zip row,
        textWidth ((SPACE :: Table._strip_nonprintable (toText p.2) ++ [SPACE])
             ++ List.replicate
                 (p.1 - (textWidth (Table._strip_nonprintable (toText p.2)) + 2)) SPACE
             ++ [VERTICAL]) = p.1 + 1)
    ∧ textWidth (Table._print_row ws row) = 1 + (ws.map (fun w => w + 1)).sum
    ∧ (0 < headers.length →
        textWidth (limiter ws) = 1 + (ws.map (fun w => w + 1)).sum) := by
  have hline : Table._print_row ws row
      = VERTICAL :: List.flatten ((ws.zip row).map (fun p =>
          (SPACE :: Table._strip_nonprintable (toText p.2) ++ [SPACE])
            ++ List.replicate
                (p.1 - (textWidth (Table._strip_nonprintable (toText p.2)) + 2)) SPACE
            ++ [VERTICAL])) := by
    unfold Table._print_row
    simp only [width_padded]
  have hbound : ∀ p ∈ ws.zip row,
      textWidth (Table._strip_nonprintable (toText p.2)) + 2 ≤ p.1 := by
    intro p hp
    obtain ⟨k, hk⟩ := List.mem_iff_getElem?.mp hp
    rw [List.getElem?_zip_eq_some] at hk
    obtain ⟨h1, h2⟩ := hk
    have hklt : k < ws.length := by
      by_contra hc
      rw [List.getElem?_eq_none (by omega)] at h1
      cases h1
    obtain ⟨hlenws, hbd⟩ := ws_bounds headers table ws hws
    have hget : ws.get ⟨k, hklt⟩ = p.1 := by
      rw [List.get_eq_getElem]
      rw [List.getElem?_eq_getElem hklt, Option.some.injEq] at h1
      exact h1
    rcases hrow with rfl | hmem
    · have := (hbd k hklt).1 p.2 h2
      rw [hget] at this
      simpa [Table._width_when_printed] using this
    · have := (hbd k hklt).2 row hmem p.2 h2
      rw [hget] at this
      simpa [Table._width_when_printed] using this
  have hseg : ∀ p ∈ ws.zip row,
      textWidth ((SPACE :: Table._strip_nonprintable (toText p.2) ++ [SPACE])
          ++ List.replicate
              (p.1 - (textWidth (Table._strip_nonprintable (toText p.2)) + 2)) SPACE
          ++ [VERTICAL]) = p.1 + 1 := by
    intro p hp
    have hb := hbound p hp
    rw [textWidth_append, textWidth_append, textWidth_pad, textWidth_replicate_SPACE]
    have hV : textWidth [VERTICAL] = 1 := by decide
    rw [hV]
    omega
  have hlenle : ws.length ≤ row.length := by
    have h1 := (ws_bounds headers table ws hws).1
    omega
  refine ⟨hline, hseg, ?_, ?_⟩
  · rw [hline]
    show textWidth ([VERTICAL] ++ _) = _
    rw [textWidth_append, textWidth_flatten]
    have hV : textWidth [VERTICAL] = 1 := by decide
    rw [hV, List.map_map]
    have hmapeq : List.map
        (textWidth ∘ fun p : Nat × Cell =>
          SPACE :: Table._strip_nonprintable (toText p.2) ++ [SPACE]
            ++ List.replicate
                (p.1 - (textWidth (Table._strip_nonprintable (toText p.2)) + 2)) SPACE
            ++ [VERTICAL])
        (ws.zip row)
        = List.map (fun p : Nat × Cell => p.1 + 1) (ws.zip row) :=
      List.map_congr_left (fun p hp => hseg p hp)
    rw [hmapeq]
    rw [show ((fun p : Nat × Cell => p.1 + 1)) = ((fun w => w + 1) ∘ Prod.fst) from rfl]
    rw [← List.map_map, List.map_fst_zip ws row hlenle]
  · intro hpos
    apply textWidth_limiter
    have h1 := (ws_bounds headers table ws hws).1
    intro hnil
    rw [hnil] at h1
    simp at h1
    omega

/-- Claim C6 counterexample: a zero-column table (empty header, one empty
data row) is constructible, and its border lines have display width 2 while
its content lines have display width 1, so not every emitted line has the
same total character-cell width. -/
theorem zero_column_width_cx :
    Table.init [([] : Row), ([] : Row)] = (some ⟨[], [[]], []⟩, [[]])
      ∧ textWidth (limiter []) = 2
      ∧ textWidth (Table._print_row [] ([] : Row)) = 1 := by
  decide

/-- Claim C6 witness: in the end-to-end example column of the spec, the data
line for the row of width 2 has total width 1 + (4 + 1) and so does the
border line. -/
theorem print_row_line_spec_witness :
    textWidth (Table._print_row [4] [Cell.int 23]) = 1 + ([4].map (fun w => w + 1)).sum
      ∧ textWidth (limiter [4]) = 1 + ([4].map (fun w => w + 1)).sum := by
  have h := print_row_line_spec [Cell.uni [73, 68]] [[Cell.int 1], [Cell.int 23]] [4]
    [Cell.int 23] (by decide) (Or.inr (by decide)) (by decide)
  exact ⟨h.2.2.1, h.2.2.2 (by decide)⟩

theorem keyed_snd_of_forall₂ {col : Nat} {l : List Row} {keyed : List (Cell × Row)}
    (hf : List.Forall₂ (fun r y => (r[col]?).map (fun k => (k, r)) = some y) l keyed) :
    keyed.map Prod.snd = l := by
  induction hf with
  | nil => rfl
  | cons h1 _ ih =>
    rcases Option.map_eq_some'.mp h1 with ⟨k, _, rfl⟩
    simp only [List.map_cons, ih]

theorem mapMo_keyed_snd (col : Nat) (l : List Row) (keyed : List (Cell × Row))
    (h : mapMo (fun r => (r[col]?).map (fun k => (k, r))) l = some keyed) :
    keyed.map Prod.snd = l :=
  keyed_snd_of_forall₂ (mapMo_forall₂ _ h)

/-- Claim C9 counterexample: sorting a column that mixes an integer and a
byte string succeeds — Python 2 cross-type comparison orders numbers before
strings — so no comparison error is raised or surfaced, contrary to the
claim. -/
theorem sort_mixed_types_cx :
    Table.sort_by_column ⟨[Cell.uni [107]], [[Cell.str [97]], [Cell.int 1]], [3]⟩ 0 false
      = some ⟨[Cell.uni [107]], [[Cell.int 1], [Cell.str [97]]], [3]⟩ := by
  decide

/-- Claim C9 (amended): `sort_by_column` never fails with a comparison
error: Python 2 compares values of different types through its cross-type
fallback ordering (numbers before other types, then type names), so as long
as every row has a cell at the sort column the sort returns a result. -/
theorem sort_by_column_no_comparison_error (t : Table) (col : Nat) (rev : Bool)
    (hcol : ∀ r ∈ t._table, col < r.length) :
    (Table.sort_by_column t col rev).isSome = true := by
  have hkeyed : mapMo (fun r => (r[col]?).map (fun k => (k, r))) t._table
      = some (t._table.map (fun r => (cellAt col r, r))) := by
    apply mapMo_map
    intro r hr
    rw [getElem?_cellAt r col (hcol r hr)]
    rfl
  unfold Table.sort_by_column
  rw [hkeyed]
  rfl

/-- Claim C9 witness: the mixed-type table from the counterexample sorts
without error. -/
theorem sort_no_comparison_error_witness :
    (Table.sort_by_column ⟨[Cell.uni [107]], [[Cell.str [97]], [Cell.int 1]], [3]⟩
        0 false).isSome = true :=
  sort_by_column_no_comparison_error
    ⟨[Cell.uni [107]], [[Cell.str [97]], [Cell.int 1]], [3]⟩ 0 false (by decide)

/-- Claim C10: construction pops the first row of the list supplied by the
caller, in place, as the header, so afterwards that list holds exactly the
data rows; the renderer keeps that same list as its row sequence, and
sorting the table rearranges exactly the rows of that list (a permutation of
it, with header and column widths untouched). -/
theorem table_init_mutates (l : List Row) (t : Table) (caller : List Row)
    (h : Table.init l = (some t, caller)) :
    l = t._headers :: caller
    ∧ t._table = caller
    ∧ caller = l.drop 1
    ∧ (∀ col rev t', Table.sort_by_column t col rev = some t' →
        t'._table.Perm caller ∧ t'._headers = t._headers
          ∧ t'._column_widths = t._column_widths) := by
  cases l with
  | nil =>
    simp [Table.init] at h
  | cons hd rest =>
    have hinit : Table.init (hd :: rest)
        = (match Table._get_column_widths hd rest with
           | some ws => (some ⟨hd, rest, ws⟩, rest)
           | none => (none, rest)) := rfl
    rw [hinit] at h
    cases hws : Table._get_column_widths hd rest with
    | none =>
      rw [hws] at h
      simp at h
    | some ws =>
      rw [hws] at h
      rw [Prod.mk.injEq, Option.some.injEq] at h
      obtain ⟨ht, hc⟩ := h
      subst ht
      subst hc
      refine ⟨rfl, rfl, rfl, ?_⟩
      intro col rev t' hsort
      unfold Table.sort_by_column at hsort
      cases hkeyed : mapMo (fun r => (r[col]?).map (fun k => (k, r))) rest with
      | none =>
        rw [hkeyed] at hsort
        cases hsort
      | some keyed =>
        rw [hkeyed] at hsort
        rw [Option.some.injEq] at hsort
        subst hsort
        refine ⟨?_, rfl, rfl⟩
        have hperm := (perm_pySort rev keyed).map Prod.snd
        rw [mapMo_keyed_snd col rest keyed hkeyed] at hperm
        exact hperm

/-- Claim C10 witness. -/
theorem table_init_mutates_witness :
    ([[Cell.uni [104]], [Cell.int 1]] : List Row)
        = (⟨[Cell.uni [104]], [[Cell.int 1]], [3]⟩ : Table)._headers :: [[Cell.int 1]]
    ∧ (⟨[Cell.uni [104]], [[Cell.int 1]], [3]⟩ : Table)._table = [[Cell.int 1]]
    ∧ ([[Cell.int 1]] : List Row) = ([[Cell.uni [104]], [Cell.int 1]] : List Row).drop 1
    ∧ (∀ col rev t',
        Table.sort_by_column ⟨[Cell.uni [104]], [[Cell.int 1]], [3]⟩ col rev = some t' →
          t'._table.Perm [[Cell.int 1]]
            ∧ t'._headers = (⟨[Cell.uni [104]], [[Cell.int 1]], [3]⟩ : Table)._headers
            ∧ t'._column_widths
                = (⟨[Cell.uni [104]], [[Cell.int 1]], [3]⟩ : Table)._column_widths) :=
  table_init_mutates [[Cell.uni [104]], [Cell.int 1]]
    ⟨[Cell.uni [104]], [[Cell.int 1]], [3]⟩ [[Cell.int 1]] (by decide)

/-- Claim C8: `sort_by_column` is a stable sort keyed on the raw
(non-normalized) cell at the given column under the Python 2 ordering of
the type of that value: the result is a permutation of the rows, rows whose key
equals any fixed value keep their relative input order, the keys of the
result are ascending, and with `reverse = true` descending while equal keys
still keep input order; header and column widths are untouched.  The
sortedness parts assume the keys of the column are all of one type, which
the phrase natural ordering of the type of that value presupposes. -/
theorem sort_by_column_spec (t : Table) (col : Nat) (rev : Bool)
    (hcol : ∀ r ∈ t._table, col < r.length)
    (hkind : ∀ r ∈ t._table, ∀ s ∈ t._table,
        kindOf (cellAt col r) = kindOf (cellAt col s)) :
    ∃ t', Table.sort_by_column t col rev = some t'
      ∧ t'._headers = t._headers
      ∧ t'._column_widths = t._column_widths
      ∧ t'._table.Perm t._table
      ∧ (∀ v : Cell, t'._table.filter (fun r => cellAt col r = v)
            = t._table.filter (fun r => cellAt col r = v))
      ∧ (if rev
          then t'._table.Pairwise
              (fun a b => cellLt (cellAt col a) (cellAt col b) = false)
          else t'._table.Pairwise
              (fun a b => cellLt (cellAt col b) (cellAt col a) = false)) := by
  have hkeyed : mapMo (fun r => (r[col]?).map (fun k => (k, r))) t._table
      = some (t._table.map (fun r => (cellAt col r, r))) := by
    apply mapMo_map
    intro r hr
    rw [getElem?_cellAt r col (hcol r hr)]
    rfl
  have hsort : Table.sort_by_column t col rev
      = some { t with _table :=
          (pySort rev (t._table.map (fun r => (cellAt col r, r)))).map Prod.snd } := by
    unfold Table.sort_by_column
    rw [hkeyed]
  have hKsnd : (t._table.map (fun r => (cellAt col r, r))).map Prod.snd = t._table := by
    rw [List.map_map]
    exact List.map_id _
  have hks : ∀ p ∈ pySort rev (t._table.map (fun r => (cellAt col r, r))),
      p.1 = cellAt col p.2 := by
    intro p hp
    have hpK := (mem_pySort rev p _).mp hp
    obtain ⟨r, hr, rfl⟩ := List.mem_map.mp hpK
    rfl
  have htrK : ∀ a ∈ t._table.map (fun r => (cellAt col r, r)),
      ∀ b ∈ t._table.map (fun r => (cellAt col r, r)),
      ∀ c ∈ t._table.map (fun r => (cellAt col r, r)),
      rowLe a b = true → rowLe b c = true → rowLe a c = true := by
    intro a ha b hb c hc h1 h2
    refine rowLe_trans_of_kind a b c ?_ ?_ h1 h2
    · obtain ⟨ra, hra, rfl⟩ := List.mem_map.mp ha
      obtain ⟨rb, hrb, rfl⟩ := List.mem_map.mp hb
      exact hkind ra hra rb hrb
    · obtain ⟨rb, hrb, rfl⟩ := List.mem_map.mp hb
      obtain ⟨rc, hrc, rfl⟩ := List.mem_map.mp hc
      exact hkind rb hrb rc hrc
  refine ⟨_, hsort, rfl, rfl, ?_, ?_, ?_⟩
  · have hperm := (perm_pySort rev (t._table.map (fun r => (cellAt col r, r)))).map Prod.snd
    rw [hKsnd] at hperm
    exact hperm
  · intro v
    conv_rhs => rw [← hKsnd]
    rw [List.filter_map, List.filter_map]
    congr 1
    have h₁ : List.filter ((fun r => decide (cellAt col r = v)) ∘ Prod.snd)
        (pySort rev (t._table.map (fun r => (cellAt col r, r))))
        = List.filter (fun p => decide (p.1 = v))
            (pySort rev (t._table.map (fun r => (cellAt col r, r)))) := by
      apply List.filter_congr
      intro p hp
      simp only [Function.comp]
      rw [← hks p hp]
    have h₂ : List.filter (fun p => decide (p.1 = v))
        (t._table.map (fun r => (cellAt col r, r)))
        = List.filter ((fun r => decide (cellAt col r = v)) ∘ Prod.snd)
            (t._table.map (fun r => (cellAt col r, r))) := by
      apply List.filter_congr
      intro p hp
      obtain ⟨r, hr, rfl⟩ := List.mem_map.mp hp
      rfl
    rw [h₁, filter_pySort_key v rev _, h₂]
  · cases rev with
    | false =>
      simp only [Bool.false_eq_true, if_false]
      rw [List.pairwise_map]
      have hpw : (pySort false (t._table.map (fun r => (cellAt col r, r)))).Pairwise
          (fun a b => rowLe a b = true) := by
        unfold pySort
        simp only [Bool.false_eq_true, if_false]
        exact pairwise_stableSort rowLe _ (fun a _ b _ => rowLe_total a b) htrK
      apply List.Pairwise.imp_of_mem ?_ hpw
      intro a b ha hb hr
      have ha1 := hks a ha
      have hb1 := hks b hb
      unfold rowLe at hr
      rw [Bool.not_eq_true'] at hr
      rw [← ha1, ← hb1]
      exact hr
    | true =>
      simp only [if_true]
      rw [List.pairwise_map]
      have hpw : (pySort true (t._table.map (fun r => (cellAt col r, r)))).Pairwise
          (fun a b => rowLe b a = true) := by
        unfold pySort
        simp only [if_true]
        rw [List.pairwise_reverse]
        apply pairwise_stableSort rowLe _ (fun a _ b _ => rowLe_total a b)
        intro a ha b hb c hc h1 h2
        exact htrK a (List.mem_reverse.mp ha) b (List.mem_reverse.mp hb)
          c (List.mem_reverse.mp hc) h1 h2
      apply List.Pairwise.imp_of_mem ?_ hpw
      intro a b ha hb hr
      have ha1 := hks a ha
      have hb1 := hks b hb
      unfold rowLe at hr
      rw [Bool.not_eq_true'] at hr
      rw [← ha1, ← hb1]
      exact hr

/-- Claim C8 witness: the example of the claim, rows (1,a), (1,b), (0,c)
keyed on column 0: ascending gives (0,c), (1,a), (1,b) and descending gives
(1,a), (1,b), (0,c), equal keys keeping their input order both ways. -/
theorem sort_by_column_spec_witness :
    ((Table.sort_by_column
        ⟨[Cell.uni [104], Cell.uni [104]],
         [[Cell.int 1, Cell.uni [97]], [Cell.int 1, Cell.uni [98]],
          [Cell.int 0, Cell.uni [99]]], [3, 3]⟩ 0 false).isSome = true)
    ∧ ((Table.sort_by_column
        ⟨[Cell.uni [104], Cell.uni [104]],
         [[Cell.int 1, Cell.uni [97]], [Cell.int 1, Cell.uni [98]],
          [Cell.int 0, Cell.uni [99]]], [3, 3]⟩ 0 true).isSome = true)
    ∧ Table.sort_by_column
        ⟨[Cell.uni [104], Cell.uni [104]],
         [[Cell.int 1, Cell.uni [97]], [Cell.int 1, Cell.uni [98]],
          [Cell.int 0, Cell.uni [99]]], [3, 3]⟩ 0 false
        = some ⟨[Cell.uni [104], Cell.uni [104]],
            [[Cell.int 0, Cell.uni [99]], [Cell.int 1, Cell.uni [97]],
             [Cell.int 1, Cell.uni [98]]], [3, 3]⟩
    ∧ Table.sort_by_column
        ⟨[Cell.uni [104], Cell.uni [104]],
         [[Cell.int 1, Cell.uni [97]], [Cell.int 1, Cell.uni [98]],
          [Cell.int 0, Cell.uni [99]]], [3, 3]⟩ 0 true
        = some ⟨[Cell.uni [104], Cell.uni [104]],
            [[Cell.int 1, Cell.uni [97]], [Cell.int 1, Cell.uni [98]],
             [Cell.int 0, Cell.uni [99]]], [3, 3]⟩ := by
  obtain ⟨t1, h1, -⟩ := sort_by_column_spec
    ⟨[Cell.uni [104], Cell.uni [104]],
     [[Cell.int 1, Cell.uni [97]], [Cell.int 1, Cell.uni [98]],
      [Cell.int 0, Cell.uni [99]]], [3, 3]⟩ 0 false (by decide) (by decide)
  obtain ⟨t2, h2, -⟩ := sort_by_column_spec
    ⟨[Cell.uni [104], Cell.uni [104]],
     [[Cell.int 1, Cell.uni [97]], [Cell.int 1, Cell.uni [98]],
      [Cell.int 0, Cell.uni [99]]], [3, 3]⟩ 0 true (by decide) (by decide)
  refine ⟨?_, ?_, by decide, by decide⟩
  · rw [h1]
    rfl
  · rw [h2]
    rfl
